import Mathlib

/-!
Verification of the duplicate-file management core (`duplicate_finder.py`
together with the `duplicates` command of `main.py`).

The Python module is embedded shallowly:

* a regular file is a record of its path, its modification timestamp, the
  outcome of reading its bytes (a successful full read as a chunk list, or a
  read error together with the chunks obtained before the failure), and
  whether an `unlink` on it would raise;
* the MD5 digest is an abstract function `md5 : List Nat → String` from byte
  contents to hexadecimal strings (real digests are never the empty string,
  which the code uses as its failure sentinel);
* the filesystem is a list of directories plus a list of regular files in
  enumeration order; `pathlib`'s `rglob`/`glob` on a root that does not exist
  or is not a directory yields no entries and raises nothing, which the
  `listFiles` definition mirrors;
* Python dictionaries preserve key insertion order, so the hash → files map
  is an association list with append-at-key semantics (`addToMap`);
* Python's `min(xs, key=k)` / `max(xs, key=k)` return the first extremal
  element, embedded as the folds `minAcc` / `maxAcc`.
-/

namespace DupFinder

/-- A chunk of bytes, as read by one `f.read(chunk_size)` call. -/
abbrev Chunk := List Nat

/-- Outcome of streaming a file's bytes: either the complete chunk sequence,
or an exception raised mid-stream after some prefix of chunks was read. -/
inductive ReadResult where
  | ok (chunks : List Chunk)
  | err (chunksBeforeError : List Chunk)
deriving DecidableEq, Repr

/-- A regular file: its path, `stat().st_mtime`, the result of reading its
content, and whether `unlink()` on it would raise. -/
structure FsFile where
  path : String
  mtime : Int
  readResult : ReadResult
  unlinkFails : Bool
deriving DecidableEq, Repr

/-- A directory state: the set of existing directories and the regular files
in enumeration (discovery) order. -/
structure FileSystem where
  dirs : List String
  files : List FsFile
deriving DecidableEq, Repr

/-- `DuplicateFinder._calculate_hash`: feed each chunk read from the file into
the incremental MD5 accumulator and return the hex digest; any exception while
opening or reading is caught and the empty string is returned instead. -/
def calcHash (md5 : List Nat → String) (f : FsFile) : String :=
  match f.readResult with
  | .ok chunks => md5 (chunks.foldl (fun a c => a ++ c) [])
  | .err _ => ""

/-- Whether `p` names an existing directory. -/
def isDir (fs : FileSystem) (p : String) : Bool :=
  fs.dirs.contains p

/-- `p` lies strictly below directory `root` (matched by `root.rglob('*')`). -/
def underDir (root p : String) : Bool :=
  (root.data ++ ['/']).isPrefixOf p.data

/-- `p` is a direct child of directory `root` (matched by `root.glob('*')`). -/
def directChildOf (root p : String) : Bool :=
  (root.data ++ ['/']).isPrefixOf p.data &&
    !((p.data.drop (root.data.length + 1)).contains '/')

/-- The enumeration step of `find_duplicates`: `rglob('*')` or `glob('*')`
filtered by `is_file()`.  `pathlib` returns an empty iterator (it does not
raise) when the root does not exist or is not a directory. -/
def listFiles (fs : FileSystem) (root : String) (recursive : Bool) : List FsFile :=
  if isDir fs root then
    if recursive then fs.files.filter (fun f => underDir root f.path)
    else fs.files.filter (fun f => directChildOf root f.path)
  else []

/-- `hash_to_files[file_hash].append(file_path)`, creating the key if absent:
association-list update preserving dictionary key insertion order. -/
def addToMap : List (String × List FsFile) → String → FsFile → List (String × List FsFile)
  | [], h, f => [(h, [f])]
  | (k, l) :: rest, h, f =>
    if k = h then (k, l ++ [f]) :: rest
    else (k, l) :: addToMap rest h f

/-- The scanning loop of `find_duplicates`: hash each file in order, skip a
file whose hash came back as the empty failure sentinel, otherwise append it
to the list keyed by its hash. -/
def buildMap (md5 : List Nat → String) :
    List FsFile → List (String × List FsFile) → List (String × List FsFile)
  | [], m => m
  | f :: rest, m =>
    if calcHash md5 f = "" then buildMap md5 rest m
    else buildMap md5 rest (addToMap m (calcHash md5 f) f)

/-- `DuplicateFinder.find_duplicates`: enumerate, hash and group the files,
then keep only the groups with more than one member. -/
def findDuplicates (md5 : List Nat → String) (fs : FileSystem) (root : String)
    (recursive : Bool) : List (String × List FsFile) :=
  (buildMap md5 (listFiles fs root recursive) []).filter (fun p => 1 < p.2.length)

/-- Python's `min(l, key)` on a nonempty list `b :: l`: fold keeping the
current best unless the candidate's key is strictly smaller, so the first
minimal element wins. -/
def minAcc {β : Type} [LinearOrder β] (key : FsFile → β) (b : FsFile) (l : List FsFile) : FsFile :=
  l.foldl (fun b a => if key a < key b then a else b) b

/-- Python's `max(l, key)` on a nonempty list `b :: l`: fold replacing the
current best only when the candidate's key is strictly larger, so the first
maximal element wins. -/
def maxAcc {β : Type} [LinearOrder β] (key : FsFile → β) (b : FsFile) (l : List FsFile) : FsFile :=
  l.foldl (fun b a => if key b < key a then a else b) b

/-- The survivor-selection `if/elif` chain of `delete_duplicates`; an
unrecognized strategy name falls back to the first file, like `keep_first`. -/
def keepFile (strategy : String) : List FsFile → Option FsFile
  | [] => none
  | x :: xs =>
    if strategy = "keep_oldest" then some (minAcc (fun f => f.mtime) x xs)
    else if strategy = "keep_newest" then some (maxAcc (fun f => f.mtime) x xs)
    else if strategy = "keep_shortest_path" then some (minAcc (fun f => f.path.length) x xs)
    else some x

/-- `file_path.unlink()`: fails (raises) iff the environment makes this file
undeletable; on success the file is removed from the filesystem. -/
def unlink (fs : FileSystem) (f : FsFile) : Option FileSystem :=
  if f.unlinkFails then none
  else some { fs with files := fs.files.filter (fun g => !(decide (g.path = f.path))) }

/-- The inner loop of `delete_duplicates` over one duplicate set: skip the
survivor (compared by path, as `Path.__eq__` does), do nothing in a dry run,
otherwise unlink and record the file, swallowing a failed unlink. -/
def deleteFromSet (dryRun : Bool) (keep : FsFile) :
    List FsFile → FileSystem → FileSystem × List FsFile
  | [], fs => (fs, [])
  | f :: rest, fs =>
    if f.path = keep.path then deleteFromSet dryRun keep rest fs
    else if dryRun then deleteFromSet dryRun keep rest fs
    else
      match unlink fs f with
      | some fsNew =>
        let r := deleteFromSet dryRun keep rest fsNew
        (r.1, f :: r.2)
      | none => deleteFromSet dryRun keep rest fs

/-- One iteration of the outer loop of `delete_duplicates`: skip a set of at
most one member, otherwise pick the survivor and resolve the set, threading
the filesystem and appending to the accumulated deleted list. -/
def resolveStep (strategy : String) (dryRun : Bool)
    (st : FileSystem × List FsFile) (p : String × List FsFile) : FileSystem × List FsFile :=
  if p.2.length ≤ 1 then st
  else
    match keepFile strategy p.2 with
    | none => st
    | some keep =>
      let r := deleteFromSet dryRun keep p.2 st.1
      (r.1, st.2 ++ r.2)

/-- `DuplicateFinder.delete_duplicates`: resolve each duplicate set in turn
(skipping sets of at most one member), threading the filesystem state and
accumulating the deleted paths across sets. -/
def deleteDuplicates (dups : List (String × List FsFile)) (strategy : String)
    (dryRun : Bool) (fs : FileSystem) : FileSystem × List FsFile :=
  dups.foldl (resolveStep strategy dryRun) (fs, [])

/-- The summary dictionary returned by `find_and_delete_duplicates`. -/
structure DedupeResult where
  duplicateSets : Nat
  totalDuplicateFiles : Nat
  deletedFiles : Nat
  deletedPaths : List FsFile
deriving DecidableEq, Repr

/-- `DuplicateFinder.find_and_delete_duplicates`: compose the scan and the
resolution and report the summary counts, together with the final filesystem
state. -/
def findAndDeleteDuplicates (md5 : List Nat → String) (fs : FileSystem) (root : String)
    (recursive : Bool) (strategy : String) (dryRun : Bool) : DedupeResult × FileSystem :=
  let dups := findDuplicates md5 fs root recursive
  let r := deleteDuplicates dups strategy dryRun fs
  (⟨dups.length, (dups.map (fun p => p.2.length - 1)).sum, r.2.length, r.2⟩, r.1)

/-- The deletions one duplicate set contributes to the result of
`delete_duplicates`: nothing for a set of at most one member or in a dry run,
otherwise every member that is not the survivor and whose unlink succeeds. -/
def setDeletions (dryRun : Bool) (keep : FsFile) (fps : List FsFile) : List FsFile :=
  if dryRun then []
  else fps.filter (fun f => !(decide (f.path = keep.path)) && !f.unlinkFails)

/-- Per-set contribution to the deleted-files list, survivor included. -/
def perSet (strategy : String) (dryRun : Bool) (p : String × List FsFile) : List FsFile :=
  if p.2.length ≤ 1 then []
  else
    match keepFile strategy p.2 with
    | none => []
    | some keep => setDeletions dryRun keep p.2

end DupFinder

namespace DupFinder

/-- `k` is the first element of `l` attaining the minimal key: `l` splits
around `k`, `k`'s key is a minimum of the whole list, and every element
occurring before `k` has a strictly larger key (ties resolve first-seen). -/
def IsFirstMinBy {β : Type} [LinearOrder β] (key : FsFile → β) (l : List FsFile) (k : FsFile) : Prop :=
  ∃ l₁ l₂, l = l₁ ++ k :: l₂ ∧ (∀ a ∈ l, key k ≤ key a) ∧ ∀ a ∈ l₁, key k < key a

/-- `k` is the first element of `l` attaining the maximal key. -/
def IsFirstMaxBy {β : Type} [LinearOrder β] (key : FsFile → β) (l : List FsFile) (k : FsFile) : Prop :=
  ∃ l₁ l₂, l = l₁ ++ k :: l₂ ∧ (∀ a ∈ l, key a ≤ key k) ∧ ∀ a ∈ l₁, key a < key k

theorem minAcc_first_min {β : Type} [LinearOrder β] (key : FsFile → β) :
    ∀ (l : List FsFile) (b : FsFile), IsFirstMinBy key (b :: l) (minAcc key b l) := by
  intro l
  induction l with
  | nil =>
    intro b
    refine ⟨[], [], rfl, ?_, ?_⟩
    · intro z hz
      rw [List.mem_singleton] at hz
      subst hz
      exact le_refl _
    · intro z hz
      exact absurd hz (List.not_mem_nil z)
  | cons a t ih =>
    intro b
    have hfold : minAcc key b (a :: t) = minAcc key (if key a < key b then a else b) t := rfl
    by_cases hab : key a < key b
    · rw [hfold, if_pos hab]
      obtain ⟨l₁, l₂, hsplit, hmin, hstrict⟩ := ih a
      have hra : key (minAcc key a t) ≤ key a := hmin a (List.mem_cons_self a t)
      have hrb : key (minAcc key a t) < key b := lt_of_le_of_lt hra hab
      refine ⟨b :: l₁, l₂, ?_, ?_, ?_⟩
      · rw [List.cons_append, ← hsplit]
      · intro z hz
        rcases List.mem_cons.mp hz with rfl | hz'
        · exact le_of_lt hrb
        · exact hmin z hz'
      · intro z hz
        rcases List.mem_cons.mp hz with rfl | hz'
        · exact hrb
        · exact hstrict z hz'
    · rw [hfold, if_neg hab]
      have hba : key b ≤ key a := le_of_not_lt hab
      obtain ⟨l₁, l₂, hsplit, hmin, hstrict⟩ := ih b
      cases l₁ with
      | nil =>
        rw [List.nil_append] at hsplit
        injection hsplit with hb hl
        refine ⟨[], a :: t, ?_, ?_, ?_⟩
        · rw [List.nil_append, ← hb]
        · intro z hz
          rcases List.mem_cons.mp hz with rfl | hz'
          · rw [← hb]
          · rcases List.mem_cons.mp hz' with rfl | hz''
            · rw [← hb]
              exact hba
            · exact hmin z (List.mem_cons_of_mem b hz'')
        · intro z hz
          exact absurd hz (List.not_mem_nil z)
      | cons p l₁' =>
        rw [List.cons_append] at hsplit
        injection hsplit with hp ht
        subst hp
        have hrb : key (minAcc key b t) < key b := hstrict b (List.mem_cons_self b l₁')
        refine ⟨b :: a :: l₁', l₂, ?_, ?_, ?_⟩
        · conv_lhs => rw [ht]
          simp [List.cons_append]
        · intro z hz
          rcases List.mem_cons.mp hz with rfl | hz'
          · exact le_of_lt hrb
          · rcases List.mem_cons.mp hz' with rfl | hz''
            · exact le_of_lt (lt_of_lt_of_le hrb hba)
            · exact hmin z (List.mem_cons_of_mem b hz'')
        · intro z hz
          rcases List.mem_cons.mp hz with rfl | hz'
          · exact hrb
          · rcases List.mem_cons.mp hz' with rfl | hz''
            · exact lt_of_lt_of_le hrb hba
            · exact hstrict z (List.mem_cons_of_mem b hz'')

theorem maxAcc_first_max {β : Type} [LinearOrder β] (key : FsFile → β) :
    ∀ (l : List FsFile) (b : FsFile), IsFirstMaxBy key (b :: l) (maxAcc key b l) := by
  intro l
  induction l with
  | nil =>
    intro b
    refine ⟨[], [], rfl, ?_, ?_⟩
    · intro z hz
      rw [List.mem_singleton] at hz
      subst hz
      exact le_refl _
    · intro z hz
      exact absurd hz (List.not_mem_nil z)
  | cons a t ih =>
    intro b
    have hfold : maxAcc key b (a :: t) = maxAcc key (if key b < key a then a else b) t := rfl
    by_cases hab : key b < key a
    · rw [hfold, if_pos hab]
      obtain ⟨l₁, l₂, hsplit, hmax, hstrict⟩ := ih a
      have hra : key a ≤ key (maxAcc key a t) := hmax a (List.mem_cons_self a t)
      have hrb : key b < key (maxAcc key a t) := lt_of_lt_of_le hab hra
      refine ⟨b :: l₁, l₂, ?_, ?_, ?_⟩
      · rw [List.cons_append, ← hsplit]
      · intro z hz
        rcases List.mem_cons.mp hz with rfl | hz'
        · exact le_of_lt hrb
        · exact hmax z hz'
      · intro z hz
        rcases List.mem_cons.mp hz with rfl | hz'
        · exact hrb
        · exact hstrict z hz'
    · rw [hfold, if_neg hab]
      have hba : key a ≤ key b := le_of_not_lt hab
      obtain ⟨l₁, l₂, hsplit, hmax, hstrict⟩ := ih b
      cases l₁ with
      | nil =>
        rw [List.nil_append] at hsplit
        injection hsplit with hb hl
        refine ⟨[], a :: t, ?_, ?_, ?_⟩
        · rw [List.nil_append, ← hb]
        · intro z hz
          rcases List.mem_cons.mp hz with rfl | hz'
          · rw [← hb]
          · rcases List.mem_cons.mp hz' with rfl | hz''
            · rw [← hb]
              exact hba
            · exact hmax z (List.mem_cons_of_mem b hz'')
        · intro z hz
          exact absurd hz (List.not_mem_nil z)
      | cons p l₁' =>
        rw [List.cons_append] at hsplit
        injection hsplit with hp ht
        subst hp
        have hrb : key b < key (maxAcc key b t) := hstrict b (List.mem_cons_self b l₁')
        refine ⟨b :: a :: l₁', l₂, ?_, ?_, ?_⟩
        · conv_lhs => rw [ht]
          simp [List.cons_append]
        · intro z hz
          rcases List.mem_cons.mp hz with rfl | hz'
          · exact le_of_lt hrb
          · rcases List.mem_cons.mp hz' with rfl | hz''
            · exact le_of_lt (lt_of_le_of_lt hba hrb)
            · exact hmax z (List.mem_cons_of_mem b hz'')
        · intro z hz
          rcases List.mem_cons.mp hz with rfl | hz'
          · exact hrb
          · rcases List.mem_cons.mp hz' with rfl | hz''
            · exact lt_of_le_of_lt hba hrb
            · exact hstrict z (List.mem_cons_of_mem b hz'')

/-- The survivor returned by `keepFile` is always a member of the set. -/
theorem keepFile_mem (strategy : String) (l : List FsFile) (k : FsFile)
    (hk : keepFile strategy l = some k) : k ∈ l := by
  cases l with
  | nil => exact absurd hk (by simp [keepFile])
  | cons x xs =>
    have hmem : ∀ {β : Type} [inst : LinearOrder β] (key : FsFile → β),
        minAcc key x xs ∈ x :: xs := by
      intro β inst key
      obtain ⟨l₁, l₂, hsplit, hmin, hstrict⟩ := minAcc_first_min key xs x
      rw [hsplit]
      exact List.mem_append.mpr (Or.inr (List.mem_cons_self _ _))
    have hmemMax : ∀ {β : Type} [inst : LinearOrder β] (key : FsFile → β),
        maxAcc key x xs ∈ x :: xs := by
      intro β inst key
      obtain ⟨l₁, l₂, hsplit, hmax, hstrict⟩ := maxAcc_first_max key xs x
      rw [hsplit]
      exact List.mem_append.mpr (Or.inr (List.mem_cons_self _ _))
    rw [keepFile] at hk
    by_cases h1 : strategy = "keep_oldest"
    · rw [if_pos h1] at hk
      rw [← Option.some.injEq _ _ |>.mp hk]
      exact hmem _
    · rw [if_neg h1] at hk
      by_cases h2 : strategy = "keep_newest"
      · rw [if_pos h2] at hk
        rw [← Option.some.injEq _ _ |>.mp hk]
        exact hmemMax _
      · rw [if_neg h2] at hk
        by_cases h3 : strategy = "keep_shortest_path"
        · rw [if_pos h3] at hk
          rw [← Option.some.injEq _ _ |>.mp hk]
          exact hmem _
        · rw [if_neg h3] at hk
          rw [← Option.some.injEq _ _ |>.mp hk]
          exact List.mem_cons_self _ _

end DupFinder

namespace DupFinder

theorem addToMap_keys (m : List (String × List FsFile)) (h : String) (f : FsFile) :
    (addToMap m h f).map Prod.fst =
      if h ∈ m.map Prod.fst then m.map Prod.fst else m.map Prod.fst ++ [h] := by
  induction m with
  | nil => simp [addToMap]
  | cons q rest ih =>
    obtain ⟨k, l⟩ := q
    by_cases hk : k = h
    · subst hk
      simp [addToMap]
    · simp only [addToMap, if_neg hk, List.map_cons]
      rw [ih]
      by_cases hmem : h ∈ rest.map Prod.fst
      · rw [if_pos hmem, if_pos (by simp [hmem])]
      · rw [if_neg hmem, if_neg ?hnotc, List.cons_append]
        case hnotc =>
          simp only [List.mem_cons]
          rintro (hh | hh)
          · exact hk hh.symm
          · exact hmem hh

theorem addToMap_mem :
    ∀ (m : List (String × List FsFile)) (h : String) (f : FsFile)
      (p : String × List FsFile),
      (m.map Prod.fst).Nodup → p ∈ addToMap m h f →
      (p ∈ m ∧ p.1 ≠ h) ∨ (∃ l, (h, l) ∈ m ∧ p = (h, l ++ [f])) ∨
        (h ∉ m.map Prod.fst ∧ p = (h, [f])) := by
  intro m h f
  induction m with
  | nil =>
    intro p _ hp
    right; right
    refine ⟨by simp, ?_⟩
    simpa [addToMap] using hp
  | cons q rest ih =>
    intro p hnd hp
    obtain ⟨k, l⟩ := q
    rw [List.map_cons, List.nodup_cons] at hnd
    obtain ⟨hknotin, hndrest⟩ := hnd
    by_cases hk : k = h
    · subst hk
      rw [show addToMap ((k, l) :: rest) k f = (k, l ++ [f]) :: rest by
        simp [addToMap]] at hp
      rcases List.mem_cons.mp hp with rfl | hp'
      · right; left
        exact ⟨l, List.mem_cons_self _ _, rfl⟩
      · left
        refine ⟨List.mem_cons_of_mem _ hp', ?_⟩
        intro hph
        exact hknotin (hph ▸ List.mem_map.mpr ⟨p, hp', rfl⟩)
    · rw [show addToMap ((k, l) :: rest) h f = (k, l) :: addToMap rest h f by
        simp [addToMap, hk]] at hp
      rcases List.mem_cons.mp hp with rfl | hp'
      · exact Or.inl ⟨List.mem_cons_self _ _, fun hh => hk hh⟩
      · rcases ih p hndrest hp' with ⟨hpm, hne⟩ | ⟨l', hl', hpe⟩ | ⟨hnin, hpe⟩
        · exact Or.inl ⟨List.mem_cons_of_mem _ hpm, hne⟩
        · exact Or.inr (Or.inl ⟨l', List.mem_cons_of_mem _ hl', hpe⟩)
        · refine Or.inr (Or.inr ⟨?_, hpe⟩)
          simp only [List.map_cons, List.mem_cons]
          rintro (hhk | hmem)
          · exact hk hhk.symm
          · exact hnin hmem

/-- Invariant of the scanning loop of `find_duplicates` after the files
`seen` have been folded into the map `m`: keys are pairwise distinct and
never the failure sentinel, and each key's list is exactly the sublist of
`seen`, in discovery order, whose hash equals the key. -/
def MapInv (md5 : List Nat → String) (seen : List FsFile)
    (m : List (String × List FsFile)) : Prop :=
  (m.map Prod.fst).Nodup ∧
  (∀ p ∈ m, p.1 ≠ "" ∧ p.2 = seen.filter (fun f => decide (calcHash md5 f = p.1))) ∧
  ∀ f ∈ seen, calcHash md5 f ≠ "" → calcHash md5 f ∈ m.map Prod.fst

theorem mapInv_step (md5 : List Nat → String) (seen : List FsFile)
    (m : List (String × List FsFile)) (f : FsFile) (hInv : MapInv md5 seen m) :
    MapInv md5 (seen ++ [f])
      (if calcHash md5 f = "" then m else addToMap m (calcHash md5 f) f) := by
  obtain ⟨hnd, hent, hcov⟩ := hInv
  by_cases hh : calcHash md5 f = ""
  · rw [if_pos hh]
    refine ⟨hnd, ?_, ?_⟩
    · intro p hp
      obtain ⟨h1, h2⟩ := hent p hp
      refine ⟨h1, ?_⟩
      have hpf : decide (calcHash md5 f = p.1) = false :=
        decide_eq_false (fun hc => h1 (hc.symm.trans hh))
      rw [List.filter_append, List.filter_cons]
      simp only [hpf]
      rw [if_neg (by simp), List.filter_nil, List.append_nil]
      exact h2
    · intro g hg hgne
      rcases List.mem_append.mp hg with hg' | hg'
      · exact hcov g hg' hgne
      · rw [List.mem_singleton] at hg'
        subst hg'
        exact absurd hh hgne
  · rw [if_neg hh]
    have hkeys := addToMap_keys m (calcHash md5 f) f
    refine ⟨?_, ?_, ?_⟩
    · rw [hkeys]
      by_cases hmem : calcHash md5 f ∈ m.map Prod.fst
      · rw [if_pos hmem]
        exact hnd
      · rw [if_neg hmem]
        rw [List.nodup_append]
        refine ⟨hnd, by simp, ?_⟩
        intro a ha hb
        rw [List.mem_singleton] at hb
        subst hb
        exact hmem ha
    · intro p hp
      rcases addToMap_mem m (calcHash md5 f) f p hnd hp with
        ⟨hpm, hne⟩ | ⟨l', hl', hpe⟩ | ⟨hnin, hpe⟩
      · obtain ⟨h1, h2⟩ := hent p hpm
        refine ⟨h1, ?_⟩
        have hpf : decide (calcHash md5 f = p.1) = false :=
          decide_eq_false (fun hc => hne hc.symm)
        rw [List.filter_append, List.filter_cons]
        simp only [hpf]
        rw [if_neg (by simp), List.filter_nil, List.append_nil]
        exact h2
      · obtain ⟨h1, h2⟩ := hent (calcHash md5 f, l') hl'
        subst hpe
        refine ⟨h1, ?_⟩
        show l' ++ [f] =
          (seen ++ [f]).filter (fun g => decide (calcHash md5 g = calcHash md5 f))
        rw [List.filter_append, List.filter_cons]
        rw [if_pos (by simp), List.filter_nil]
        exact congrArg (fun t => t ++ [f]) h2
      · subst hpe
        refine ⟨hh, ?_⟩
        show [f] = (seen ++ [f]).filter (fun g => decide (calcHash md5 g = calcHash md5 f))
        have hfe : seen.filter (fun g => decide (calcHash md5 g = calcHash md5 f)) = [] := by
          rw [List.filter_eq_nil_iff]
          intro g hg hgp
          rw [decide_eq_true_eq] at hgp
          exact hnin (hgp ▸ hcov g hg (by rw [hgp]; exact hh))
        rw [List.filter_append, List.filter_cons]
        rw [if_pos (by simp), List.filter_nil, hfe, List.nil_append]
    · intro g hg hgne
      rcases List.mem_append.mp hg with hg' | hg'
      · have := hcov g hg' hgne
        rw [hkeys]
        by_cases hmem : calcHash md5 f ∈ m.map Prod.fst
        · rw [if_pos hmem]
          exact this
        · rw [if_neg hmem]
          exact List.mem_append.mpr (Or.inl this)
      · rw [List.mem_singleton] at hg'
        subst hg'
        rw [hkeys]
        by_cases hmem : calcHash md5 g ∈ m.map Prod.fst
        · rw [if_pos hmem]
          exact hmem
        · rw [if_neg hmem]
          exact List.mem_append.mpr (Or.inr (List.mem_singleton.mpr rfl))

end DupFinder

namespace DupFinder

theorem buildMap_inv (md5 : List Nat → String) :
    ∀ (files seen : List FsFile) (m : List (String × List FsFile)),
      MapInv md5 seen m → MapInv md5 (seen ++ files) (buildMap md5 files m) := by
  intro files
  induction files with
  | nil =>
    intro seen m h
    simpa [buildMap] using h
  | cons f rest ih =>
    intro seen m h
    have hstep := mapInv_step md5 seen m f h
    by_cases hh : calcHash md5 f = ""
    · rw [if_pos hh] at hstep
      have hres := ih (seen ++ [f]) m hstep
      rw [List.append_assoc, List.singleton_append] at hres
      rw [show buildMap md5 (f :: rest) m = buildMap md5 rest m by simp [buildMap, hh]]
      exact hres
    · rw [if_neg hh] at hstep
      have hres := ih (seen ++ [f]) (addToMap m (calcHash md5 f) f) hstep
      rw [List.append_assoc, List.singleton_append] at hres
      rw [show buildMap md5 (f :: rest) m =
        buildMap md5 rest (addToMap m (calcHash md5 f) f) by simp [buildMap, hh]]
      exact hres

theorem findDuplicates_inv (md5 : List Nat → String) (fs : FileSystem) (root : String)
    (recursive : Bool) :
    MapInv md5 (listFiles fs root recursive)
      (buildMap md5 (listFiles fs root recursive) []) := by
  have h0 : MapInv md5 [] [] := ⟨List.nodup_nil, by simp, by simp⟩
  simpa using buildMap_inv md5 (listFiles fs root recursive) [] [] h0

/-- Unfolding membership in the result of `find_duplicates`: the key is not
the failure sentinel, the list is the discovery-ordered sublist of the
enumerated files hashing to the key, and it has at least two members. -/
theorem mem_findDuplicates (md5 : List Nat → String) (fs : FileSystem) (root : String)
    (recursive : Bool) (p : String × List FsFile)
    (hp : p ∈ findDuplicates md5 fs root recursive) :
    1 < p.2.length ∧ p.1 ≠ "" ∧
      p.2 = (listFiles fs root recursive).filter
        (fun f => decide (calcHash md5 f = p.1)) := by
  obtain ⟨hnd, hent, hcov⟩ := findDuplicates_inv md5 fs root recursive
  rw [findDuplicates] at hp
  obtain ⟨hpm, hlen⟩ := List.mem_filter.mp hp
  obtain ⟨h1, h2⟩ := hent p hpm
  exact ⟨of_decide_eq_true hlen, h1, h2⟩

theorem findDuplicates_keys_nodup (md5 : List Nat → String) (fs : FileSystem)
    (root : String) (recursive : Bool) :
    ((findDuplicates md5 fs root recursive).map Prod.fst).Nodup := by
  obtain ⟨hnd, _, _⟩ := findDuplicates_inv md5 fs root recursive
  exact List.Nodup.sublist (List.Sublist.map Prod.fst (List.filter_sublist _)) hnd

/-- Files whose hashing fails are simply skipped: the scanning loop computes
the same map as the loop run on only the successfully-hashed files. -/
theorem buildMap_skip_failed (md5 : List Nat → String) :
    ∀ (files : List FsFile) (m : List (String × List FsFile)),
      buildMap md5 files m =
        buildMap md5 (files.filter (fun f => !(decide (calcHash md5 f = "")))) m := by
  intro files
  induction files with
  | nil => intro m; rfl
  | cons f rest ih =>
    intro m
    by_cases hh : calcHash md5 f = ""
    · rw [show buildMap md5 (f :: rest) m = buildMap md5 rest m by simp [buildMap, hh]]
      rw [List.filter_cons, if_neg (by simp [hh])]
      exact ih m
    · rw [show buildMap md5 (f :: rest) m =
        buildMap md5 rest (addToMap m (calcHash md5 f) f) by simp [buildMap, hh]]
      rw [List.filter_cons, if_pos (by simp [hh])]
      rw [show buildMap md5 (f :: rest.filter (fun f => !(decide (calcHash md5 f = "")))) m =
        buildMap md5 (rest.filter (fun f => !(decide (calcHash md5 f = ""))))
          (addToMap m (calcHash md5 f) f) by simp [buildMap, hh]]
      exact ih (addToMap m (calcHash md5 f) f)

theorem deleteFromSet_snd (dryRun : Bool) (keep : FsFile) :
    ∀ (fps : List FsFile) (fs : FileSystem),
      (deleteFromSet dryRun keep fps fs).2 = setDeletions dryRun keep fps := by
  intro fps
  induction fps with
  | nil =>
    intro fs
    cases dryRun <;> simp [deleteFromSet, setDeletions]
  | cons f rest ih =>
    intro fs
    by_cases hpk : f.path = keep.path
    · rw [show deleteFromSet dryRun keep (f :: rest) fs = deleteFromSet dryRun keep rest fs by
        simp [deleteFromSet, hpk]]
      rw [ih fs]
      cases dryRun with
      | false => simp [setDeletions, List.filter_cons, hpk]
      | true => simp [setDeletions]
    · cases dryRun with
      | true =>
        rw [show deleteFromSet true keep (f :: rest) fs = deleteFromSet true keep rest fs by
          simp [deleteFromSet, hpk]]
        rw [ih fs]
        simp [setDeletions]
      | false =>
        by_cases huf : f.unlinkFails
        · rw [show deleteFromSet false keep (f :: rest) fs = deleteFromSet false keep rest fs by
            simp [deleteFromSet, hpk, unlink, huf]]
          rw [ih fs]
          simp [setDeletions, List.filter_cons, huf]
        · rw [show deleteFromSet false keep (f :: rest) fs =
            ((deleteFromSet false keep rest
                { fs with files := fs.files.filter (fun g => !(decide (g.path = f.path))) }).1,
              f :: (deleteFromSet false keep rest
                { fs with files := fs.files.filter (fun g => !(decide (g.path = f.path))) }).2) by
            simp [deleteFromSet, hpk, unlink, huf]]
          show f :: (deleteFromSet false keep rest _).2 = _
          rw [ih]
          simp [setDeletions, List.filter_cons, hpk, huf]

theorem deleteFromSet_dry_fst (keep : FsFile) :
    ∀ (fps : List FsFile) (fs : FileSystem),
      (deleteFromSet true keep fps fs).1 = fs := by
  intro fps
  induction fps with
  | nil => intro fs; rfl
  | cons f rest ih =>
    intro fs
    by_cases hpk : f.path = keep.path
    · rw [show deleteFromSet true keep (f :: rest) fs = deleteFromSet true keep rest fs by
        simp [deleteFromSet, hpk]]
      exact ih fs
    · rw [show deleteFromSet true keep (f :: rest) fs = deleteFromSet true keep rest fs by
        simp [deleteFromSet, hpk]]
      exact ih fs

end DupFinder

namespace DupFinder

theorem deleteDuplicates_foldl_snd (strategy : String) (dryRun : Bool) :
    ∀ (dups : List (String × List FsFile)) (st : FileSystem × List FsFile),
      (dups.foldl (resolveStep strategy dryRun) st).2 =
        st.2 ++ dups.flatMap (perSet strategy dryRun) := by
  intro dups
  induction dups with
  | nil => intro st; simp
  | cons p rest ih =>
    intro st
    rw [List.foldl_cons, ih, List.flatMap_cons]
    have hsnd : (resolveStep strategy dryRun st p).2 = st.2 ++ perSet strategy dryRun p := by
      rw [resolveStep, perSet]
      by_cases hlen : p.2.length ≤ 1
      · rw [if_pos hlen, if_pos hlen, List.append_nil]
      · rw [if_neg hlen, if_neg hlen]
        cases hk : keepFile strategy p.2 with
        | none => simp
        | some keep => simp [deleteFromSet_snd]
    rw [hsnd, List.append_assoc]

/-- The deleted-files list returned by `delete_duplicates` is the
concatenation, over the duplicate sets in order, of each set's
contribution. -/
theorem deleteDuplicates_snd (dups : List (String × List FsFile)) (strategy : String)
    (dryRun : Bool) (fs : FileSystem) :
    (deleteDuplicates dups strategy dryRun fs).2 =
      dups.flatMap (perSet strategy dryRun) := by
  rw [deleteDuplicates, deleteDuplicates_foldl_snd]
  simp

theorem deleteDuplicates_foldl_dry_fst (strategy : String) :
    ∀ (dups : List (String × List FsFile)) (st : FileSystem × List FsFile),
      (dups.foldl (resolveStep strategy true) st).1 = st.1 := by
  intro dups
  induction dups with
  | nil => intro st; rfl
  | cons p rest ih =>
    intro st
    rw [List.foldl_cons, ih]
    rw [resolveStep]
    by_cases hlen : p.2.length ≤ 1
    · rw [if_pos hlen]
    · rw [if_neg hlen]
      cases hk : keepFile strategy p.2 with
      | none => rfl
      | some keep => simp [deleteFromSet_dry_fst]

/-- Decomposing membership in one set's contribution: the set had more than
one member, a survivor was selected, and the member differs from the survivor
by path, failed no unlink, and the run was live. -/
theorem mem_perSet (strategy : String) (dryRun : Bool) (p : String × List FsFile)
    (g : FsFile) (hg : g ∈ perSet strategy dryRun p) :
    ∃ k, keepFile strategy p.2 = some k ∧ g ∈ p.2 ∧ g.path ≠ k.path ∧
      g.unlinkFails = false ∧ dryRun = false ∧ 1 < p.2.length := by
  rw [perSet] at hg
  by_cases hlen : p.2.length ≤ 1
  · rw [if_pos hlen] at hg
    exact absurd hg (List.not_mem_nil g)
  · rw [if_neg hlen] at hg
    cases hk : keepFile strategy p.2 with
    | none =>
      rw [hk] at hg
      exact absurd hg (List.not_mem_nil g)
    | some keep =>
      rw [hk] at hg
      simp only [setDeletions] at hg
      cases dryRun with
      | true => simp at hg
      | false =>
        rw [if_neg (by simp)] at hg
        obtain ⟨hmem, hcond⟩ := List.mem_filter.mp hg
        rw [Bool.and_eq_true] at hcond
        obtain ⟨h1, h2⟩ := hcond
        refine ⟨keep, rfl, hmem, ?_, ?_, rfl, not_le.mp hlen⟩
        · intro hpp
          rw [Bool.not_eq_true'] at h1
          exact absurd hpp (of_decide_eq_false h1)
        · rw [Bool.not_eq_true'] at h2
          exact h2

/-- In a dry run every set contributes no deletions. -/
theorem perSet_dry (strategy : String) (p : String × List FsFile) :
    perSet strategy true p = [] := by
  rw [perSet]
  by_cases hlen : p.2.length ≤ 1
  · rw [if_pos hlen]
  · rw [if_neg hlen]
    cases hk : keepFile strategy p.2 with
    | none => rfl
    | some keep => simp [setDeletions]

end DupFinder

namespace DupFinder

theorem listFiles_sublist (fs : FileSystem) (root : String) (recursive : Bool) :
    (listFiles fs root recursive).Sublist fs.files := by
  rw [listFiles]
  by_cases hd : isDir fs root = true
  · rw [if_pos hd]
    cases recursive with
    | true =>
      rw [if_pos rfl]
      exact List.filter_sublist _
    | false =>
      rw [if_neg (by simp)]
      exact List.filter_sublist _
  · rw [if_neg hd]
    exact List.nil_sublist _

/-- On a real directory state — one where paths identify files uniquely —
two duplicate sets returned by `find_duplicates` that contain files with the
same path are the same set. -/
theorem findDuplicates_disjoint (md5 : List Nat → String) (fs : FileSystem)
    (root : String) (recursive : Bool)
    (hnd : (fs.files.map (fun f => f.path)).Nodup) :
    ∀ p ∈ findDuplicates md5 fs root recursive,
      ∀ q ∈ findDuplicates md5 fs root recursive,
        ∀ x ∈ p.2, ∀ y ∈ q.2, x.path = y.path → p.2 = q.2 := by
  intro p hp q hq x hx y hy hxy
  obtain ⟨_, _, hpf⟩ := mem_findDuplicates md5 fs root recursive p hp
  obtain ⟨_, _, hqf⟩ := mem_findDuplicates md5 fs root recursive q hq
  have hx' := hx
  rw [hpf] at hx'
  obtain ⟨hxl, hxh⟩ := List.mem_filter.mp hx'
  have hy' := hy
  rw [hqf] at hy'
  obtain ⟨hyl, hyh⟩ := List.mem_filter.mp hy'
  have hndl : ((listFiles fs root recursive).map (fun f => f.path)).Nodup :=
    List.Nodup.sublist (List.Sublist.map _ (listFiles_sublist fs root recursive)) hnd
  have hxyeq : x = y := List.inj_on_of_nodup_map hndl hxl hyl hxy
  subst hxyeq
  have hkey : p.1 = q.1 := by
    have h1 := of_decide_eq_true hxh
    have h2 := of_decide_eq_true hyh
    rw [← h1, ← h2]
  rw [hpf, hqf, hkey]

/-- A digest stand-in used for concrete runs: encodes the byte content into a
decimal string; injective enough on the sample contents and never empty. -/
def md5c : List Nat → String :=
  fun bs => toString (bs.foldl (fun a n => a * 10 + n + 1) 7)

/-- A constant digest stand-in (every digest nonempty). -/
def md5d : List Nat → String := fun _ => "d"

def fA : FsFile := ⟨"r/a", 1, .ok [[1]], false⟩

def fB : FsFile := ⟨"r/b", 2, .ok [[1]], true⟩

def fC : FsFile := ⟨"r/c", 3, .ok [[1]], false⟩

def fD : FsFile := ⟨"r/d", 4, .ok [[2]], false⟩

/-- A file whose read fails after one chunk. -/
def fErr : FsFile := ⟨"r/e", 5, .err [[9]], false⟩

/-- A directory state with one duplicate set `{fA, fB, fC}`, a unique file
`fD`, and an unreadable file `fErr`. -/
def fsC : FileSystem := ⟨["r"], [fA, fB, fC, fD, fErr]⟩

/-- A state in which the root directory `r` does not exist. -/
def fsNoRoot : FileSystem := ⟨[], [fA]⟩

end DupFinder

namespace DupFinder

/-- Claim C1: for every duplicate set resolved by `delete_duplicates` (any
policy name, dry-run or live), the file selected as the survivor is never
included in the returned list of deleted files, and only non-survivor members
of some set can appear there.  The disjointness hypothesis states that paths
identify files uniquely across the sets, as holds for the output of
`find_duplicates` on a real directory state (`findDuplicates_disjoint`). -/
theorem survivor_never_deleted (dups : List (String × List FsFile)) (strategy : String)
    (dryRun : Bool) (fs : FileSystem) (h : String) (fps : List FsFile) (k : FsFile)
    (hmem : (h, fps) ∈ dups)
    (hkeep : keepFile strategy fps = some k)
    (hdisj : ∀ p ∈ dups, ∀ q ∈ dups, ∀ x ∈ p.2, ∀ y ∈ q.2, x.path = y.path → p.2 = q.2) :
    k ∉ (deleteDuplicates dups strategy dryRun fs).2 ∧
    ∀ g ∈ (deleteDuplicates dups strategy dryRun fs).2,
      ∃ h2 fps2 k2, (h2, fps2) ∈ dups ∧ keepFile strategy fps2 = some k2 ∧
        g ∈ fps2 ∧ g.path ≠ k2.path := by
  constructor
  · intro hkin
    rw [deleteDuplicates_snd] at hkin
    obtain ⟨p', hp', hkper⟩ := List.mem_flatMap.mp hkin
    obtain ⟨k', hk', hkmem, hkpath, _, _, _⟩ := mem_perSet strategy dryRun p' k hkper
    have hsets : p'.2 = fps :=
      hdisj p' hp' (h, fps) hmem k hkmem k (keepFile_mem strategy fps k hkeep) rfl
    rw [hsets, hkeep] at hk'
    have hkk : k = k' := by injection hk'
    exact hkpath (congrArg FsFile.path hkk)
  · intro g hg
    rw [deleteDuplicates_snd] at hg
    obtain ⟨p', hp', hper⟩ := List.mem_flatMap.mp hg
    obtain ⟨k', hk', hgmem, hgpath, _, _, _⟩ := mem_perSet strategy dryRun p' g hper
    exact ⟨p'.1, p'.2, k', by rw [Prod.mk.eta]; exact hp', hk', hgmem, hgpath⟩

theorem survivor_never_deleted_witness :
    fA ∉ (deleteDuplicates [("72", [fA, fB, fC])] "keep_oldest" false fsC).2 :=
  (survivor_never_deleted [("72", [fA, fB, fC])] "keep_oldest" false fsC
    "72" [fA, fB, fC] fA (by decide) (by decide) (by decide)).1

/-- Claim C2: for every file whose read fails mid-stream (after any prefix of
chunks), `_calculate_hash` fails atomically: it returns the empty-string
failure sentinel — never the digest of the partial content read so far, nor
any other digest — so the caller can distinguish the failure and decide to
skip or abort.  The hypothesis that `md5` never produces the empty string
holds for real MD5, whose hex digest always has 32 characters. -/
theorem hash_read_failure_atomic (md5 : List Nat → String) (f : FsFile) (pre : List Chunk)
    (hmd5 : ∀ bs : List Nat, md5 bs ≠ "")
    (hf : f.readResult = ReadResult.err pre) :
    calcHash md5 f = "" ∧ ∀ bs : List Nat, calcHash md5 f ≠ md5 bs := by
  have h1 : calcHash md5 f = "" := by
    rw [calcHash, hf]
  exact ⟨h1, fun bs hb => hmd5 bs (h1.symm.trans hb).symm⟩

theorem hash_read_failure_atomic_witness :
    calcHash md5d fErr = "" ∧ ∀ bs : List Nat, calcHash md5d fErr ≠ md5d bs :=
  hash_read_failure_atomic md5d fErr [[9]]
    (fun bs h => absurd h (show ¬("d" = "") from by decide)) rfl

/-- Claim C3: when `dry_run` is true, `delete_duplicates` (and hence
`find_and_delete_duplicates`) performs no filesystem mutation, and running
`find_duplicates` again on the resulting state yields an identical mapping. -/
theorem dry_run_pure (md5 : List Nat → String) (fs : FileSystem) (root : String)
    (recursive : Bool) (strategy : String) (dups : List (String × List FsFile)) :
    (deleteDuplicates dups strategy true fs).1 = fs ∧
    (findAndDeleteDuplicates md5 fs root recursive strategy true).2 = fs ∧
    findDuplicates md5 (findAndDeleteDuplicates md5 fs root recursive strategy true).2
        root recursive = findDuplicates md5 fs root recursive := by
  have h1 : ∀ ds, (deleteDuplicates ds strategy true fs).1 = fs := by
    intro ds
    rw [deleteDuplicates]
    exact deleteDuplicates_foldl_dry_fst strategy ds (fs, [])
  have h2 : (findAndDeleteDuplicates md5 fs root recursive strategy true).2 = fs := by
    show (deleteDuplicates (findDuplicates md5 fs root recursive) strategy true fs).1 = fs
    exact h1 _
  exact ⟨h1 dups, h2, by rw [h2]⟩

/-- Claim C4: for every non-empty duplicate set, `delete_duplicates` selects
the survivor according to the named policy — `keep_oldest` the first file of
minimal modification time, `keep_newest` the first of maximal modification
time, `keep_shortest_path` the first of minimal path length, `keep_first` the
first element — with ties resolving to the first-seen file. -/
theorem keepFile_policy_correct (x : FsFile) (xs : List FsFile) :
    (∃ k, keepFile "keep_oldest" (x :: xs) = some k ∧
      IsFirstMinBy (fun f => f.mtime) (x :: xs) k) ∧
    (∃ k, keepFile "keep_newest" (x :: xs) = some k ∧
      IsFirstMaxBy (fun f => f.mtime) (x :: xs) k) ∧
    (∃ k, keepFile "keep_shortest_path" (x :: xs) = some k ∧
      IsFirstMinBy (fun f => f.path.length) (x :: xs) k) ∧
    keepFile "keep_first" (x :: xs) = some x :=
  ⟨⟨minAcc (fun f => f.mtime) x xs, rfl, minAcc_first_min _ xs x⟩,
    ⟨maxAcc (fun f => f.mtime) x xs, rfl, maxAcc_first_max _ xs x⟩,
    ⟨minAcc (fun f => f.path.length) x xs, rfl, minAcc_first_min _ xs x⟩, rfl⟩

/-- Claim C5, counterexample: with a root that does not exist (`fsNoRoot` has
no directory `r`), `find_duplicates` returns a normal empty mapping and
`find_and_delete_duplicates` a normal all-zero summary — the operation
completes successfully instead of failing with a root-not-found error. -/
theorem root_missing_no_error :
    isDir fsNoRoot "r" = false ∧
    findDuplicates md5c fsNoRoot "r" true = [] ∧
    findAndDeleteDuplicates md5c fsNoRoot "r" true "keep_oldest" false =
      (⟨0, 0, 0, []⟩, fsNoRoot) := by
  decide

/-- Claim C5, amended: if the supplied root path does not exist or is not a
directory, the operation does not fail: the scan enumerates no files,
`find_duplicates` returns the empty mapping, and `find_and_delete_duplicates`
returns an all-zero summary leaving the filesystem untouched. -/
theorem root_missing_empty_scan (md5 : List Nat → String) (fs : FileSystem) (root : String)
    (recursive : Bool) (strategy : String) (dryRun : Bool)
    (hroot : isDir fs root = false) :
    findDuplicates md5 fs root recursive = [] ∧
    (findAndDeleteDuplicates md5 fs root recursive strategy dryRun).1 = ⟨0, 0, 0, []⟩ ∧
    (findAndDeleteDuplicates md5 fs root recursive strategy dryRun).2 = fs := by
  have hl : listFiles fs root recursive = [] := by
    rw [listFiles, if_neg (by simp [hroot])]
  have hf : findDuplicates md5 fs root recursive = [] := by
    rw [findDuplicates, hl]
    rfl
  refine ⟨hf, ?_, ?_⟩
  · simp [findAndDeleteDuplicates, hf, deleteDuplicates]
  · simp [findAndDeleteDuplicates, hf, deleteDuplicates]

theorem root_missing_empty_scan_witness :
    findDuplicates md5c fsNoRoot "r" false = [] ∧
    (findAndDeleteDuplicates md5c fsNoRoot "r" false "keep_newest" true).1 = ⟨0, 0, 0, []⟩ ∧
    (findAndDeleteDuplicates md5c fsNoRoot "r" false "keep_newest" true).2 = fsNoRoot :=
  root_missing_empty_scan md5c fsNoRoot "r" false "keep_newest" true (by decide)

/-- Claim C6: if fingerprinting fails for some file, that file is excluded
from every duplicate set in the returned mapping (no key is the empty
sentinel), and the scan of the remaining files continues to completion: the
map built is the one built from exactly the successfully-hashed files. -/
theorem hash_failure_file_excluded (md5 : List Nat → String) (fs : FileSystem)
    (root : String) (recursive : Bool) :
    (∀ p ∈ findDuplicates md5 fs root recursive, p.1 ≠ "") ∧
    (∀ f : FsFile, ∀ pre : List Chunk, f.readResult = ReadResult.err pre →
      ∀ p ∈ findDuplicates md5 fs root recursive, f ∉ p.2) ∧
    buildMap md5 (listFiles fs root recursive) [] =
      buildMap md5 ((listFiles fs root recursive).filter
        (fun f => !(decide (calcHash md5 f = "")))) [] := by
  refine ⟨?_, ?_, buildMap_skip_failed md5 _ []⟩
  · intro p hp
    exact (mem_findDuplicates md5 fs root recursive p hp).2.1
  · intro f pre hf p hp hmem
    obtain ⟨_, hne, hfl⟩ := mem_findDuplicates md5 fs root recursive p hp
    rw [hfl] at hmem
    obtain ⟨_, hcond⟩ := List.mem_filter.mp hmem
    have hch : calcHash md5 f = p.1 := of_decide_eq_true hcond
    have hempty : calcHash md5 f = "" := by
      rw [calcHash, hf]
    exact hne (hch.symm.trans hempty)

theorem hash_failure_file_excluded_witness :
    fErr ∉ [fA, fB, fC] :=
  (hash_failure_file_excluded md5c fsC "r" true).2.1 fErr [[9]] rfl
    ("72", [fA, fB, fC]) (by decide)

/-- Claim C7: in a live run, a non-survivor whose deletion fails is caught
and omitted from the returned deleted list, and processing continues with the
remaining members of the set and with subsequent sets: the returned list is
exactly the concatenation over all sets of the non-survivors whose unlink
succeeded, in order. -/
theorem delete_failure_skipped (dups : List (String × List FsFile)) (strategy : String)
    (fs : FileSystem) :
    ((deleteDuplicates dups strategy false fs).2 = dups.flatMap (perSet strategy false)) ∧
    (∀ g ∈ (deleteDuplicates dups strategy false fs).2, g.unlinkFails = false) ∧
    ∀ p ∈ dups, ∀ k, keepFile strategy p.2 = some k → 1 < p.2.length →
      perSet strategy false p =
        p.2.filter (fun f => !(decide (f.path = k.path)) && !f.unlinkFails) := by
  refine ⟨deleteDuplicates_snd dups strategy false fs, ?_, ?_⟩
  · intro g hg
    rw [deleteDuplicates_snd] at hg
    obtain ⟨p, hp, hper⟩ := List.mem_flatMap.mp hg
    obtain ⟨k, _, _, _, hunl, _, _⟩ := mem_perSet strategy false p g hper
    exact hunl
  · intro p hp k hk hlen
    rw [perSet, if_neg (not_le.mpr hlen), hk]
    simp [setDeletions]

theorem delete_failure_skipped_witness :
    perSet "keep_oldest" false ("72", [fA, fB, fC]) = [fC] := by
  have h := (delete_failure_skipped [("72", [fA, fB, fC])] "keep_oldest" fsC).2.2
    ("72", [fA, fB, fC]) (by decide) fA (by decide) (by decide)
  rw [h]
  decide

/-- Claim C8: every mapping entry returned by `find_duplicates` has a list of
two or more files, that list is exactly the enumerated files with that
fingerprint in first-seen discovery order, and every listed file's content
matches at least one other scanned file. -/
theorem duplicate_sets_card_and_order (md5 : List Nat → String) (fs : FileSystem)
    (root : String) (recursive : Bool) :
    ∀ p ∈ findDuplicates md5 fs root recursive,
      2 ≤ p.2.length ∧
      p.2 = (listFiles fs root recursive).filter
        (fun f => decide (calcHash md5 f = p.1)) ∧
      ∀ f ∈ p.2, 2 ≤ ((listFiles fs root recursive).filter
        (fun g => decide (calcHash md5 g = calcHash md5 f))).length := by
  intro p hp
  obtain ⟨hlen, hne, hfl⟩ := mem_findDuplicates md5 fs root recursive p hp
  refine ⟨hlen, hfl, ?_⟩
  intro f hf
  have hfh : calcHash md5 f = p.1 := by
    rw [hfl] at hf
    exact of_decide_eq_true (List.mem_filter.mp hf).2
  rw [hfh, ← hfl]
  exact hlen

theorem duplicate_sets_card_and_order_witness :
    2 ≤ ([fA, fB, fC] : List FsFile).length ∧
    [fA, fB, fC] = (listFiles fsC "r" true).filter
      (fun f => decide (calcHash md5c f = "72")) := by
  have h := duplicate_sets_card_and_order md5c fsC "r" true ("72", [fA, fB, fC]) (by decide)
  exact ⟨h.1, h.2.1⟩

/-- Claim C9: every duplicate set returned by `find_duplicates` contains only
files whose fingerprint equals the set's key (hence pairwise equal), and no
two distinct returned sets share a fingerprint key. -/
theorem partition_correctness (md5 : List Nat → String) (fs : FileSystem)
    (root : String) (recursive : Bool) :
    ((findDuplicates md5 fs root recursive).map Prod.fst).Nodup ∧
    ∀ p ∈ findDuplicates md5 fs root recursive, ∀ f ∈ p.2,
      calcHash md5 f = p.1 ∧ ∀ g ∈ p.2, calcHash md5 f = calcHash md5 g := by
  refine ⟨findDuplicates_keys_nodup md5 fs root recursive, ?_⟩
  intro p hp f hf
  obtain ⟨_, _, hfl⟩ := mem_findDuplicates md5 fs root recursive p hp
  have hfh : calcHash md5 f = p.1 := by
    rw [hfl] at hf
    exact of_decide_eq_true (List.mem_filter.mp hf).2
  refine ⟨hfh, ?_⟩
  intro g hg
  have hgh : calcHash md5 g = p.1 := by
    rw [hfl] at hg
    exact of_decide_eq_true (List.mem_filter.mp hg).2
  rw [hfh, hgh]

theorem partition_correctness_witness :
    calcHash md5c fB = "72" ∧ ∀ g ∈ [fA, fB, fC], calcHash md5c fB = calcHash md5c g :=
  (partition_correctness md5c fsC "r" true).2 ("72", [fA, fB, fC]) (by decide) fB (by decide)

/-- Claim C10: when `dry_run` is true, `delete_duplicates` returns the empty
list whatever duplicate sets are passed in, so `find_and_delete_duplicates`
reports zero deleted files and an empty deleted-paths list even while still
reporting the number of duplicate sets found. -/
theorem dry_run_reports_no_deletions (md5 : List Nat → String) (fs : FileSystem)
    (root : String) (recursive : Bool) (strategy : String)
    (dups : List (String × List FsFile)) :
    (deleteDuplicates dups strategy true fs).2 = [] ∧
    (findAndDeleteDuplicates md5 fs root recursive strategy true).1.deletedFiles = 0 ∧
    (findAndDeleteDuplicates md5 fs root recursive strategy true).1.deletedPaths = [] ∧
    (findAndDeleteDuplicates md5 fs root recursive strategy true).1.duplicateSets =
      (findDuplicates md5 fs root recursive).length := by
  have hempty : ∀ ds : List (String × List FsFile),
      (deleteDuplicates ds strategy true fs).2 = [] := by
    intro ds
    rw [deleteDuplicates_snd]
    induction ds with
    | nil => rfl
    | cons p rest ih =>
      rw [List.flatMap_cons, perSet_dry, List.nil_append]
      exact ih
  refine ⟨hempty dups, ?_, ?_, rfl⟩
  · show (deleteDuplicates (findDuplicates md5 fs root recursive) strategy true fs).2.length = 0
    rw [hempty]
    rfl
  · show (deleteDuplicates (findDuplicates md5 fs root recursive) strategy true fs).2 = []
    exact hempty _

end DupFinder
